import Mathlib

/-!
Verification of the hio hierarchical boxwork runtime
(`src/hio/base/hier/boxing.py`, `src/hio/base/hier/acting.py`).

Boxes are modelled by numeric identifiers; Python object identity (`is`)
becomes equality of identifiers.  A boxwork is a total map from identifiers
to link records.  The lazy pile trace (`Box._trace`) follows `over` links up
and `unders[0]` links down; since the Python `while` loops diverge on cyclic
links, the walks take a fuel argument and return `none` when the fuel runs
out, `some` when the loop stopped naturally.
-/

/-- Link record of a `Box` as used by `Box._trace` and `Boxer.exen`:
`over` is the optional over box, `unders` the ordered list of under boxes
(zeroth entry is the primary under). -/
structure BoxRec where
  over : Option Nat
  unders : List Nat
deriving DecidableEq, Repr

/-- A boxwork: total map from box identifiers to their link records. -/
def BoxWork : Type := Nat → BoxRec

/-- The upward half of `Box._trace`: walk the `over` links, collecting the
strict ancestors of `b` in top-down order (`pile.insert(0, over)` loop).
Returns `none` when the walk does not stop within `fuel` steps. -/
def overWalk (W : BoxWork) : Nat → Nat → Option (List Nat)
  | 0, _ => none
  | fuel + 1, b =>
    match (W b).over with
    | none => some []
    | some o => (overWalk W fuel o).map (fun l => l ++ [o])

/-- The downward half of `Box._trace`: from an optional primary under,
walk `unders[0]` links, collecting the descendants in top-down order
(`pile.append(under)` loop).  `none` when the fuel runs out. -/
def underWalk (W : BoxWork) : Nat → Option Nat → Option (List Nat)
  | _, none => some []
  | 0, some _ => none
  | fuel + 1, some u => (underWalk W fuel ((W u).unders.head?)).map (fun l => u :: l)

/-- `Box._trace`: the pile of `b` (ancestors, then `b`, then primary-under
descendants, top-down) together with `spot`, the index of `b` in the pile
(`len(pile) - 1` just after the up walk, i.e. the number of ancestors). -/
def trace (W : BoxWork) (fuel b : Nat) : Option (List Nat × Nat) :=
  match overWalk W fuel b, underWalk W fuel ((W b).unders.head?) with
  | some up, some dn => some (up ++ b :: dn, up.length)
  | _, _ => none

/-- One well-formedness direction of boxwork links, maintained by
`Boxer.bx` and `Boxer.resolve` (both append a box to `over.unders` exactly
when setting its `over`): membership in an `unders` list implies the
corresponding `over` link. -/
def undersLinked (W : BoxWork) : Prop :=
  ∀ a b : Nat, b ∈ (W a).unders → (W b).over = some a

/-- The other well-formedness direction: an `over` link implies membership
in that over box's `unders` list. -/
def overLinked (W : BoxWork) : Prop :=
  ∀ a b : Nat, (W b).over = some a → b ∈ (W a).unders

/-- The scan condition of the `for i in range(l)` loop in `Boxer.exen`:
`(far is nears[i]) or (fars[i] is not nears[i])`. -/
def exenCond (far : Nat) (nears fars : List Nat) (i : Nat) : Bool :=
  (far == nears.getD i 0) || !(fars.getD i 0 == nears.getD i 0)

/-- The quadruple `(exits, enters, rexits, renters)` returned by
`Boxer.exen` when the scan stops at index `i`:
`(reversed(nears[i:]), fars[i:], reversed(nears[:i]), fars[:i])`. -/
def exenQuad (nears fars : List Nat) (i : Nat) :
    List Nat × List Nat × List Nat × List Nat :=
  ((nears.drop i).reverse, fars.drop i, (nears.take i).reverse, fars.take i)

/-- The loop body of `Boxer.exen`: scan indices `i, i+1, ...` while `rem`
counts the remaining iterations (`rem + i` is constantly `l`); the implicit
`return None` past the loop is the `rem = 0` case. -/
def exenGo (far : Nat) (nears fars : List Nat) :
    Nat → Nat → Option (List Nat × List Nat × List Nat × List Nat)
  | _, 0 => none
  | i, rem + 1 =>
    if exenCond far nears fars i then some (exenQuad nears fars i)
    else exenGo far nears fars (i + 1) rem

/-- `Boxer.exen` on already-traced piles: scan `i in range(min(len(nears),
len(fars)))` for the first index satisfying `exenCond` and return the
quadruple there, `none` (Python `None`) on fall-through. -/
def exen (far : Nat) (nears fars : List Nat) :
    Option (List Nat × List Nat × List Nat × List Nat) :=
  exenGo far nears fars 0 (min nears.length fars.length)

/-- `Boxer.exen(near, far)` proper: read `nears = near.pile` and
`fars = far.pile` (tracing with the given fuel) and scan. -/
def exenBoxes (W : BoxWork) (fuel near far : Nat) :
    Option (List Nat × List Nat × List Nat × List Nat) :=
  match trace W fuel near, trace W fuel far with
  | some (nears, _), some (fars, _) => exen far nears fars
  | _, _ => none

/-- Concrete boxwork: a single chain `0` over `1` over `2`
(the pile `[A, B, C]` of scenario S3 with `A = 0`, `B = 1`, `C = 2`). -/
def chainWork : BoxWork := fun b =>
  match b with
  | 0 => ⟨none, [1]⟩
  | 1 => ⟨some 0, [2]⟩
  | 2 => ⟨some 1, []⟩
  | _ => ⟨none, []⟩

/-- Concrete boxwork: root `0` with two children `2` and `3` of `1`
(scenario S4 with `R = 0`, `A = 1`, `X = 2`, `Y = 3`). -/
def branchWork : BoxWork := fun b =>
  match b with
  | 0 => ⟨none, [1]⟩
  | 1 => ⟨some 0, [2, 3]⟩
  | 2 => ⟨some 1, []⟩
  | 3 => ⟨some 1, []⟩
  | _ => ⟨none, []⟩

/-- Concrete boxwork: two disjoint chains `0`-`1` and `2`-`3`
(scenario S5 with `P = 0`, `Q = 1`, `R = 2`, `S = 3`). -/
def twoTreeWork : BoxWork := fun b =>
  match b with
  | 0 => ⟨none, [1]⟩
  | 1 => ⟨some 0, []⟩
  | 2 => ⟨none, [3]⟩
  | 3 => ⟨some 2, []⟩
  | _ => ⟨none, []⟩

/-- Concrete boxwork with a dangling `over` link: box `1` has `over = 0`
but box `0` has an empty `unders` list (as after direct `Box` construction,
before any resolve).  Both traces terminate, yet `exen` falls through. -/
def danglingWork : BoxWork := fun b =>
  match b with
  | 1 => ⟨some 0, []⟩
  | _ => ⟨none, []⟩

/-- Python exceptions raised by the embedded methods: the unbound-local
error and `HierError` with a message. -/
inductive PyErr where
  | unboundLocal : PyErr
  | hier : String → PyErr
deriving DecidableEq, Repr

/-- The `over` attribute of a box under construction: `None`, a still
unresolved name string, or a resolved box (identified by its name, since
`Boxer.boxes` is keyed by unique names). -/
inductive OverLink where
  | noBox : OverLink
  | unresolved : String → OverLink
  | resolved : String → OverLink
deriving DecidableEq, Repr

/-- A box as seen by `Boxer.resolve`: its `over` attribute and its
`unders` name list. -/
structure RBox where
  over : OverLink
  unders : List String
deriving DecidableEq, Repr

/-- The over-resolution loop of `Boxer.resolve` (boxing.py lines 370-378),
embedded faithfully: the lookup `over = self.boxes[over]` reads the local
name `over` before any assignment to it, so the first box whose `over` is
still a string raises `UnboundLocalError` (which the surrounding
`except KeyError` does not catch); boxes whose `over` is `None` or already
a box are passed over unchanged. -/
def resolveOvers (boxes : List (String × RBox)) :
    Except PyErr (List (String × RBox)) :=
  match boxes with
  | [] => Except.ok []
  | (n, bx) :: rest =>
    match bx.over with
    | OverLink.unresolved _ => Except.error PyErr.unboundLocal
    | _ => (resolveOvers rest).map (fun r => (n, bx) :: r)

/-- Name lookup in a box list keyed by name (`self.boxes[name]`). -/
def lookupBox (boxes : List (String × RBox)) (n : String) : Option RBox :=
  (boxes.find? (fun p => p.1 == n)).map Prod.snd

/-- Append box `n` to the `unders` list of box `o`. -/
def appendUnder (boxes : List (String × RBox)) (o n : String) :
    List (String × RBox) :=
  boxes.map (fun p =>
    if p.1 = o then (p.1, { p.2 with unders := p.2.unders ++ [n] }) else p)

/-- Replace the `over` attribute of box `n` by the resolved box `o`. -/
def setOverResolved (boxes : List (String × RBox)) (n o : String) :
    List (String × RBox) :=
  boxes.map (fun p =>
    if p.1 = n then (p.1, { p.2 with over := OverLink.resolved o }) else p)

/-- Modelled from the spec: the over-resolution step of `Boxer.resolve` as
stated in the specification (the source instead reads an unbound local,
see `resolveOvers`): for every box whose `over` is a string, look that
name up in `boxes`, failing `UnresolvedLink` on a miss, replace `over`
with the found box and append the box to that over box's `unders`. -/
def resolveOversSpec (boxes : List (String × RBox)) :
    Except PyErr (List (String × RBox)) :=
  (boxes.map Prod.fst).foldlM (fun acc n =>
    match lookupBox acc n with
    | none => Except.ok acc
    | some bx =>
      match bx.over with
      | OverLink.unresolved o =>
        match lookupBox acc o with
        | none => Except.error (PyErr.hier "UnresolvedLink")
        | some _ => Except.ok (appendUnder (setOverResolved acc n o) o n)
      | _ => Except.ok acc) boxes

/-- Concrete boxer for `resolve`: box `a` with no over, box `b` whose
`over` is the (resolvable) name string `a`. -/
def resolveInput : List (String × RBox) :=
  [("a", ⟨OverLink.noBox, []⟩), ("b", ⟨OverLink.unresolved "a", []⟩)]

/-- A constructed `Goact`: the stored nabe (context) string and the
destination (unresolved name; defaults to `'next'`). -/
structure GoactRec where
  nabe : String
  dest : String
deriving DecidableEq, Repr

/-- `Goact.__init__` (acting.py lines 198-227): `kwa.update(nabe=Nabe.godo)`
replaces whatever nabe the caller passed before `ActBase.__init__` stores
it (Modelled from the spec: `ActBase.__init__` of hiering.py, not under
src/, stores the passed nabe unchanged on the instance), the default dest
is `'next'`, and the final check raises `InvalidNabe` only when the stored
nabe differs from godo. -/
def goactInit (_nabePassed : Option String) (dest : Option String) :
    Except PyErr GoactRec :=
  let stored := "godo"
  let g : GoactRec := { nabe := stored, dest := dest.getD "next" }
  if stored ≠ "godo" then Except.error (PyErr.hier "InvalidNabe")
  else Except.ok g

/-- Builder state seen by the `do` verb: the boxer's box names (`do` probes
generated names against `self.boxes`), the shared `WorkDom.bxidx` counter,
and the current box's `enacts` list (deed names stand in for acts). -/
structure WorkState where
  boxes : List String
  bxidx : Nat
  enacts : List String
deriving DecidableEq, Repr

/-- Deed-name generation of `Boxer.do`: candidate `'act' + str(bxidx)`,
increment the index, retry while the candidate is a key of `boxes`.  The
fuel bounds the loop; `boxes.length + 1` attempts always reach a free
name, so the fuel never runs out in `doVerb`. -/
def genDeed (boxes : List String) : Nat → Nat → String × Nat
  | 0, idx => ("act" ++ toString idx, idx + 1)
  | fuel + 1, idx =>
    let d := "act" ++ toString idx
    if boxes.contains d then genDeed boxes fuel (idx + 1)
    else (d, idx + 1)

/-- `Boxer.do` (boxing.py lines 635-671): generate a fresh deed name when
none is passed (bumping `bxidx`), reject an empty deed, and return the
deed name.  The method touches no act list of any box. -/
def doVerb (st : WorkState) (deed : Option String) :
    Except PyErr (String × WorkState) :=
  match deed with
  | none =>
    let r := genDeed st.boxes (st.boxes.length + 1) st.bxidx
    Except.ok (r.1, { st with bxidx := r.2 })
  | some d =>
    if d = "" then Except.error (PyErr.hier "Missing deed.")
    else Except.ok (d, st)

/-- A box with its link attributes and the lazy-trace cache fields
`_pile` and `_spot` of `Box.__init__` (`None` until `_trace` runs). -/
structure CacheBox where
  over : Option Nat
  unders : List Nat
  cpile : Option (List Nat)
  cspot : Option Nat

/-- A boxwork of boxes carrying their caches. -/
def CacheWork : Type := Nat → CacheBox

/-- The link view of a cached boxwork (forget the cache fields). -/
def linksView (W : CacheWork) : BoxWork :=
  fun a => ⟨(W a).over, (W a).unders⟩

/-- The `Box.pile` property getter: return the cached `_pile` when set,
otherwise run `_trace` on the current links and store pile and spot. -/
def pileGet (W : CacheWork) (fuel b : Nat) : Option (List Nat × CacheWork) :=
  match (W b).cpile with
  | some p => some (p, W)
  | none =>
    match trace (linksView W) fuel b with
    | some (p, s) =>
      some (p, fun a =>
        if a = b then { W a with cpile := some p, cspot := some s } else W a)
    | none => none

/-- Plain attribute assignment `box.over = v`: `over` is an ordinary
attribute in the source, so only the link changes; the `_pile` cache is
not touched. -/
def setOver (W : CacheWork) (b : Nat) (v : Option Nat) : CacheWork :=
  fun a => if a = b then { W a with over := v } else W a

/-- Plain attribute assignment (or in-place mutation) of `box.unders`:
only the link changes; the `_pile` cache is not touched. -/
def setUnders (W : CacheWork) (b : Nat) (us : List Nat) : CacheWork :=
  fun a => if a = b then { W a with unders := us } else W a

/-- Concrete cached boxwork: two unlinked boxes `0` and `1`, untraced. -/
def cacheWork0 : CacheWork := fun _ => ⟨none, [], none, none⟩

/-- Concrete cached boxwork: box `0` already traced (cache `[0]`, spot 0),
box `1` unlinked and untraced. -/
def cachedWork1 : CacheWork := fun a =>
  if a = 0 then ⟨none, [], some [0], some 0⟩ else ⟨none, [], none, none⟩

/-- A mine bag: its payload `value` and its write-stamp `_tyme`
(both unset until first write).  Payloads and tymes are rationals. -/
structure Bag where
  value : Option ℚ
  tyme : Option ℚ
deriving DecidableEq, Repr

/-- The mine: a partial map from key paths (segment lists) to bags. -/
def Mine : Type := List String → Option Bag

/-- The update-mark key `("", "boxer", boxer, "box", box, "update", key)`
of `UpdateMark` (acting.py line 487/503). -/
def updateKeys (boxer box key : String) : List String :=
  ["", "boxer", boxer, "box", box, "update", key]

/-- `UpdateMark.act` (acting.py lines 493-505): store the marked bag's
`_tyme` as the value of the bag at the update-mark key
(`self.mine[keys].value = self.mine[key]._tyme`).  Both bags are present
when the act runs (`Mark.__init__` asserts the marked key,
`UpdateMark.__init__` creates the mark bag); a missing bag is a `KeyError`,
modelled as `none`.  Per the spec's Bag invariant, the mutation stamps the
written bag's own `_tyme` with the current tyme `now`. -/
def updateMarkAct (mine : Mine) (now : ℚ) (boxer box key : String) :
    Option Mine :=
  match mine [key], mine (updateKeys boxer box key) with
  | some bag, some mark =>
    some (fun k =>
      if k = updateKeys boxer box key
      then some { mark with value := bag.tyme, tyme := some now }
      else mine k)
  | _, _ => none

/-- Modelled from the spec: the `updated(key)` guard predicate evaluated by
`needing.py` (not under src/), as §4.3 of the spec states it: the bag at
`key`'s `_tyme` differs from the stored mark at the update-mark key. -/
def updatedPred (mine : Mine) (boxer box key : String) : Option Bool :=
  match mine [key], mine (updateKeys boxer box key) with
  | some bag, some mark => some (decide (mark.value ≠ bag.tyme))
  | _, _ => none

/-- Concrete mine: marked bag at `["k"]` with value 1 written at tyme 1/2,
and an untouched mark bag at the update-mark key. -/
def mineStart : Mine := fun k =>
  if k = ["k"] then some ⟨some 1, some (1/2)⟩
  else if k = updateKeys "b" "x" "k" then some ⟨none, none⟩
  else none


/-- The scan condition as a proposition, phrased as the source comment does. -/
lemma exenCond_iff (far : Nat) (nears fars : List Nat) (i : Nat) :
    exenCond far nears fars i = true ↔
      (far = nears.getD i 0 ∨ fars.getD i 0 ≠ nears.getD i 0) := by
  simp [exenCond, beq_iff_eq]

/-- The `exen` scan falls through exactly when no remaining index satisfies
the scan condition. -/
lemma exenGo_eq_none_iff (far : Nat) (nears fars : List Nat) :
    ∀ rem i, exenGo far nears fars i rem = none ↔
      ∀ k, k < rem → exenCond far nears fars (i + k) = false := by
  intro rem
  induction rem with
  | zero => intro i; simp [exenGo]
  | succ rem ih =>
    intro i
    by_cases hc : exenCond far nears fars i = true
    · simp only [exenGo, hc, if_true]
      constructor
      · intro h; cases h
      · intro h
        have h0 := h 0 (Nat.succ_pos rem)
        rw [Nat.add_zero] at h0
        rw [hc] at h0; cases h0
    · have hc' : exenCond far nears fars i = false := by
        cases h : exenCond far nears fars i
        · rfl
        · exact absurd h hc
      simp only [exenGo, hc', if_false, Bool.false_eq_true, ih (i + 1)]
      constructor
      · intro h k hk
        cases k with
        | zero => rw [Nat.add_zero]; exact hc'
        | succ k' =>
          have e : i + (k' + 1) = i + 1 + k' := by omega
          rw [e]
          exact h k' (by omega)
      · intro h k hk
        have e : i + 1 + k = i + (k + 1) := by omega
        rw [e]
        exact h (k + 1) (by omega)

/-- Characterization of a successful `exen` scan: the returned quadruple is
the one at the least remaining index satisfying the scan condition. -/
lemma exenGo_eq_some_iff (far : Nat) (nears fars : List Nat) :
    ∀ rem i q, exenGo far nears fars i rem = some q ↔
      ∃ k, k < rem ∧ exenCond far nears fars (i + k) = true ∧
        (∀ j, j < k → exenCond far nears fars (i + j) = false) ∧
        q = exenQuad nears fars (i + k) := by
  intro rem
  induction rem with
  | zero => intro i q; simp [exenGo]
  | succ rem ih =>
    intro i q
    by_cases hc : exenCond far nears fars i = true
    · simp only [exenGo, hc, if_true]
      constructor
      · intro h
        refine ⟨0, Nat.succ_pos rem, ?_, ?_, ?_⟩
        · rw [Nat.add_zero]; exact hc
        · intro j hj; omega
        · rw [Nat.add_zero]; exact (Option.some_injective _ h).symm
      · rintro ⟨k, hk, hck, hmin, hq⟩
        cases k with
        | zero => rw [Nat.add_zero] at hq; rw [hq]
        | succ k' =>
          have h0 := hmin 0 (Nat.succ_pos k')
          rw [Nat.add_zero] at h0
          rw [hc] at h0; cases h0
    · have hc' : exenCond far nears fars i = false := by
        cases h : exenCond far nears fars i
        · rfl
        · exact absurd h hc
      simp only [exenGo, hc', if_false, Bool.false_eq_true, ih (i + 1)]
      constructor
      · rintro ⟨k, hk, hck, hmin, hq⟩
        have e : i + 1 + k = i + (k + 1) := by omega
        rw [e] at hck hq
        refine ⟨k + 1, by omega, hck, ?_, hq⟩
        intro j hj
        cases j with
        | zero => rw [Nat.add_zero]; exact hc'
        | succ j' =>
          have e' : i + (j' + 1) = i + 1 + j' := by omega
          rw [e']
          exact hmin j' (by omega)
      · rintro ⟨k, hk, hck, hmin, hq⟩
        cases k with
        | zero =>
          rw [Nat.add_zero] at hck
          rw [hck] at hc'; cases hc'
        | succ k' =>
          have e : i + (k' + 1) = i + 1 + k' := by omega
          rw [e] at hck hq
          refine ⟨k', by omega, hck, ?_, hq⟩
          intro j hj
          have e' : i + 1 + j = i + (j + 1) := by omega
          rw [e']
          exact hmin (j + 1) (by omega)

/-- `exen` returns the quadruple at the least index satisfying the scan
condition, whenever that index lies below `min` of the pile lengths. -/
lemma exen_eq_some (far : Nat) (nears fars : List Nat) (i : Nat)
    (hi : i < min nears.length fars.length)
    (hc : exenCond far nears fars i = true)
    (hmin : ∀ j, j < i → exenCond far nears fars j = false) :
    exen far nears fars = some (exenQuad nears fars i) := by
  rw [exen, exenGo_eq_some_iff]
  refine ⟨i, hi, ?_, ?_, ?_⟩
  · rw [Nat.zero_add]; exact hc
  · intro j hj; rw [Nat.zero_add]; exact hmin j hj
  · rw [Nat.zero_add]

/-- Inversion for a successful `exen` scan. -/
lemma exen_some_elim (far : Nat) (nears fars : List Nat)
    (q : List Nat × List Nat × List Nat × List Nat)
    (h : exen far nears fars = some q) :
    ∃ i, i < min nears.length fars.length ∧
      exenCond far nears fars i = true ∧
      (∀ j, j < i → exenCond far nears fars j = false) ∧
      q = exenQuad nears fars i := by
  rw [exen, exenGo_eq_some_iff] at h
  obtain ⟨k, hk, hck, hmin, hq⟩ := h
  rw [Nat.zero_add] at hck hq
  refine ⟨k, hk, hck, ?_, hq⟩
  intro j hj
  have := hmin j hj
  rw [Nat.zero_add] at this
  exact this

/-- `exen` succeeds as soon as some index below `min` of the pile lengths
satisfies the scan condition. -/
lemma exen_isSome (far : Nat) (nears fars : List Nat)
    (h : ∃ i, i < min nears.length fars.length ∧
      exenCond far nears fars i = true) :
    ∃ q, exen far nears fars = some q := by
  obtain ⟨i, hi, hc⟩ := h
  cases hx : exen far nears fars with
  | some q => exact ⟨q, rfl⟩
  | none =>
    rw [exen, exenGo_eq_none_iff] at hx
    have := hx i hi
    rw [Nat.zero_add] at this
    rw [hc] at this; cases this

/-- `y`'s over link is `x` (orientation of consecutive pile entries). -/
def overRel (W : BoxWork) (x y : Nat) : Prop := (W y).over = some x

/-- `x`'s primary under is `y` (orientation of consecutive pile entries). -/
def underRel (W : BoxWork) (x y : Nat) : Prop := (W x).unders.head? = some y

/-- A successful over walk yields an over-linked chain ending at the walked
box, whose top has no over link (that is where the `while` loop stopped). -/
lemma overWalk_chain (W : BoxWork) :
    ∀ fuel b up, overWalk W fuel b = some up →
      (up ++ [b]).Chain' (overRel W) ∧ (W ((up ++ [b]).getD 0 0)).over = none := by
  intro fuel
  induction fuel with
  | zero => intro b up h; cases h
  | succ fuel ih =>
    intro b up h
    rw [overWalk] at h
    cases ho : (W b).over with
    | none =>
      rw [ho] at h
      have hup : up = [] := by
        cases h; rfl
      subst hup
      refine ⟨List.chain'_singleton b, ?_⟩
      simpa using ho
    | some o =>
      rw [ho] at h
      obtain ⟨up0, h0, hup⟩ := Option.map_eq_some'.mp h
      subst hup
      obtain ⟨hch, hhd⟩ := ih o up0 h0
      have hassoc : up0 ++ [o] ++ [b] = (up0 ++ [o]) ++ [b] := rfl
      constructor
      · rw [hassoc, List.chain'_append]
        refine ⟨hch, List.chain'_singleton b, ?_⟩
        intro x hx y hy
        rw [List.getLast?_concat] at hx
        simp only [List.head?_cons, Option.mem_def, Option.some.injEq] at hx hy
        subst hx; subst hy
        exact ho
      · have hne : up0 ++ [o] ≠ [] := by simp
        have : ((up0 ++ [o]) ++ [b]).getD 0 0 = (up0 ++ [o]).getD 0 0 := by
          apply List.getD_append
          have := List.length_pos.mpr hne
          omega
        rw [hassoc, this]
        exact hhd

/-- A successful under walk yields an under-linked chain starting at the
optional primary under it was given; the last collected box has no primary
under (that is where the `while` loop stopped). -/
lemma underWalk_spec (W : BoxWork) :
    ∀ fuel ho dn, underWalk W fuel ho = some dn →
      dn.Chain' (underRel W) ∧ dn.head? = ho ∧
      (∀ x ∈ dn.getLast?, (W x).unders.head? = none) := by
  intro fuel
  induction fuel with
  | zero =>
    intro ho dn h
    cases ho with
    | none =>
      have hdn : dn = [] := by cases h; rfl
      subst hdn
      exact ⟨List.chain'_nil, rfl, by simp⟩
    | some u => cases h
  | succ fuel ih =>
    intro ho dn h
    cases ho with
    | none =>
      have hdn : dn = [] := by cases h; rfl
      subst hdn
      exact ⟨List.chain'_nil, rfl, by simp⟩
    | some u =>
      rw [underWalk] at h
      obtain ⟨dn0, h0, hdn⟩ := Option.map_eq_some'.mp h
      subst hdn
      obtain ⟨hch, hhd, hlast⟩ := ih ((W u).unders.head?) dn0 h0
      refine ⟨?_, rfl, ?_⟩
      · rw [List.chain'_cons']
        refine ⟨?_, hch⟩
        intro y hy
        rw [hhd] at hy
        exact hy
      · intro x hx
        cases dn0 with
        | nil =>
          simp only [List.getLast?_singleton, Option.mem_def, Option.some.injEq] at hx
          subst hx
          rw [← hhd]
          rfl
        | cons d ds =>
          rw [List.getLast?_cons_cons] at hx
          exact hlast x hx

/-- Decomposition of a successful trace into its up part, the traced box,
and its down part, with the chain structure of both parts. -/
lemma trace_decomp (W : BoxWork) (fuel b : Nat) (P : List Nat) (s : Nat)
    (h : trace W fuel b = some (P, s)) :
    ∃ up dn, P = up ++ b :: dn ∧ s = up.length ∧
      (up ++ [b]).Chain' (overRel W) ∧
      (W ((up ++ [b]).getD 0 0)).over = none ∧
      (b :: dn).Chain' (underRel W) ∧
      (∀ x ∈ (b :: dn).getLast?, (W x).unders.head? = none) := by
  rw [trace] at h
  cases hov : overWalk W fuel b with
  | none => rw [hov] at h; cases h
  | some up =>
    cases hun : underWalk W fuel ((W b).unders.head?) with
    | none => rw [hov, hun] at h; cases h
    | some dn =>
      rw [hov, hun] at h
      have hP : P = up ++ b :: dn ∧ s = up.length := by
        cases h; exact ⟨rfl, rfl⟩
      obtain ⟨hP, hs⟩ := hP
      obtain ⟨hupch, hroot⟩ := overWalk_chain W fuel b up hov
      obtain ⟨hdnch, hdnhd, hdnlast⟩ := underWalk_spec W fuel _ dn hun
      refine ⟨up, dn, hP, hs, hupch, hroot, ?_, ?_⟩
      · rw [List.chain'_cons']
        refine ⟨?_, hdnch⟩
        intro y hy
        rw [hdnhd] at hy
        exact hy
      · intro x hx
        cases dn with
        | nil =>
          simp only [List.getLast?_singleton, Option.mem_def, Option.some.injEq] at hx
          subst hx
          rw [← hdnhd]
          rfl
        | cons d ds =>
          rw [List.getLast?_cons_cons] at hx
          exact hdnlast x hx

/-- Consecutive entries of a `Chain'` list, through `getD` indexing. -/
lemma chain'_getD {R : Nat → Nat → Prop} (l : List Nat) (h : l.Chain' R) :
    ∀ j, j + 1 < l.length → R (l.getD j 0) (l.getD (j + 1) 0) := by
  intro j hj
  have hg := List.chain'_iff_get.mp h j (by omega)
  rw [List.getD_eq_getElem l 0 (by omega), List.getD_eq_getElem l 0 hj]
  simpa [List.get_eq_getElem] using hg

/-- A list whose entries each carry a pointer to the previous entry, with
the first entry pointing nowhere, has pairwise distinct entries. -/
lemma chain_root_ne (f : Nat → Option Nat) (P : List Nat)
    (hc : ∀ j, j + 1 < P.length → f (P.getD (j + 1) 0) = some (P.getD j 0))
    (hr : f (P.getD 0 0) = none) :
    ∀ p q, p < q → q < P.length → P.getD p 0 ≠ P.getD q 0 := by
  intro p
  induction p with
  | zero =>
    intro q hpq hq heq
    have hq1 : (q - 1) + 1 < P.length := by omega
    have := hc (q - 1) hq1
    have hqq : (q - 1) + 1 = q := by omega
    rw [hqq] at this
    rw [← heq] at this
    rw [hr] at this
    cases this
  | succ p ih =>
    intro q hpq hq heq
    have hp1 : p + 1 < P.length := by omega
    have h1 := hc p hp1
    have hq1 : (q - 1) + 1 < P.length := by omega
    have h2 := hc (q - 1) hq1
    have hqq : (q - 1) + 1 = q := by omega
    rw [hqq] at h2
    rw [heq] at h1
    rw [h2] at h1
    have heq' : P.getD p 0 = P.getD (q - 1) 0 := Option.some_injective _ h1.symm
    exact ih (q - 1) (by omega) (by omega) heq'

/-- The last entry of a nonempty list through `getD` indexing. -/
lemma getLast?_eq_getD (l : List Nat) (h : l ≠ []) :
    l.getLast? = some (l.getD (l.length - 1) 0) := by
  have h1 : l.length - 1 < l.length := by
    have := List.length_pos.mpr h; omega
  rw [List.getLast?_eq_getElem?, List.getD_eq_getElem l 0 h1, List.getElem?_eq_getElem h1]

/-- The spot returned by a trace is a valid pile index. -/
lemma trace_spot_lt (W : BoxWork) (fuel b : Nat) (P : List Nat) (s : Nat)
    (h : trace W fuel b = some (P, s)) : s < P.length := by
  obtain ⟨up, dn, hP, hs, -, -, -, -⟩ := trace_decomp W fuel b P s h
  subst hP; subst hs
  simp [List.length_append]

/-- `pile[spot]` is the traced box itself. -/
lemma trace_getD_spot (W : BoxWork) (fuel b : Nat) (P : List Nat) (s : Nat)
    (h : trace W fuel b = some (P, s)) : P.getD s 0 = b := by
  obtain ⟨up, dn, hP, hs, -, -, -, -⟩ := trace_decomp W fuel b P s h
  subst hP; subst hs
  rw [List.getD_append_right up (b :: dn) 0 up.length le_rfl]
  simp

/-- Above the spot, consecutive pile entries are linked by `over`. -/
lemma trace_up_chain (W : BoxWork) (fuel b : Nat) (P : List Nat) (s : Nat)
    (h : trace W fuel b = some (P, s)) :
    ∀ i, i < s → (W (P.getD (i + 1) 0)).over = some (P.getD i 0) := by
  obtain ⟨up, dn, hP, hs, hupch, -, -, -⟩ := trace_decomp W fuel b P s h
  intro i hi
  have hPU : P = (up ++ [b]) ++ dn := by rw [hP, List.append_assoc]; rfl
  have hUlen : (up ++ [b]).length = s + 1 := by
    rw [List.length_append, List.length_singleton, hs]
  have h1 : i < (up ++ [b]).length := by omega
  have h2 : i + 1 < (up ++ [b]).length := by omega
  have e1 : P.getD i 0 = (up ++ [b]).getD i 0 := by
    rw [hPU]; exact List.getD_append _ _ _ _ h1
  have e2 : P.getD (i + 1) 0 = (up ++ [b]).getD (i + 1) 0 := by
    rw [hPU]; exact List.getD_append _ _ _ _ h2
  rw [e1, e2]
  exact chain'_getD (up ++ [b]) hupch i (by omega)

/-- Below the spot, each pile entry is the primary under of its
predecessor. -/
lemma trace_down_chain (W : BoxWork) (fuel b : Nat) (P : List Nat) (s : Nat)
    (h : trace W fuel b = some (P, s)) :
    ∀ i, s < i → i < P.length →
      (W (P.getD (i - 1) 0)).unders.head? = some (P.getD i 0) := by
  obtain ⟨up, dn, hP, hs, -, -, hdnch, -⟩ := trace_decomp W fuel b P s h
  intro i hsi hi
  have hDlen : (b :: dn).length = P.length - s := by
    rw [hP, List.length_append, List.length_cons, hs]; omega
  have e1 : P.getD (i - 1) 0 = (b :: dn).getD (i - 1 - s) 0 := by
    rw [hP]
    rw [List.getD_append_right up (b :: dn) 0 (i - 1) (by omega)]
    rw [hs]
  have e2 : P.getD i 0 = (b :: dn).getD (i - s) 0 := by
    rw [hP]
    rw [List.getD_append_right up (b :: dn) 0 i (by omega)]
    rw [hs]
  rw [e1, e2]
  have hstep := chain'_getD (b :: dn) hdnch (i - 1 - s) (by omega)
  have e3 : i - 1 - s + 1 = i - s := by omega
  rw [e3] at hstep
  exact hstep

/-- The top of a traced pile has no over link (the up walk stopped there). -/
lemma trace_root (W : BoxWork) (fuel b : Nat) (P : List Nat) (s : Nat)
    (h : trace W fuel b = some (P, s)) : (W (P.getD 0 0)).over = none := by
  obtain ⟨up, dn, hP, hs, -, hroot, -, -⟩ := trace_decomp W fuel b P s h
  have hPU : P = (up ++ [b]) ++ dn := by rw [hP, List.append_assoc]; rfl
  have h0 : 0 < (up ++ [b]).length := by
    rw [List.length_append, List.length_singleton]; omega
  have e : P.getD 0 0 = (up ++ [b]).getD 0 0 := by
    rw [hPU]; exact List.getD_append _ _ _ _ h0
  rw [e]
  exact hroot

/-- The bottom of a traced pile has no primary under (the down walk
stopped there). -/
lemma trace_last (W : BoxWork) (fuel b : Nat) (P : List Nat) (s : Nat)
    (h : trace W fuel b = some (P, s)) :
    (W (P.getD (P.length - 1) 0)).unders.head? = none := by
  obtain ⟨up, dn, hP, hs, -, -, -, hlast⟩ := trace_decomp W fuel b P s h
  have hDlen : (b :: dn).length = P.length - s := by
    rw [hP, List.length_append, List.length_cons, hs]; omega
  have hPlen : s < P.length := trace_spot_lt W fuel b P s h
  have e : P.getD (P.length - 1) 0 = (b :: dn).getD (P.length - 1 - s) 0 := by
    calc P.getD (P.length - 1) 0
        = (up ++ b :: dn).getD (P.length - 1) 0 := by rw [← hP]
      _ = (b :: dn).getD (P.length - 1 - up.length) 0 :=
          List.getD_append_right _ _ _ _ (by omega)
      _ = (b :: dn).getD (P.length - 1 - s) 0 := by rw [← hs]
  have hne : (b :: dn) ≠ [] := by simp
  have hmem : (b :: dn).getD ((b :: dn).length - 1) 0 ∈ (b :: dn).getLast? := by
    rw [getLast?_eq_getD (b :: dn) hne]; rfl
  have e2 : (b :: dn).length - 1 = P.length - 1 - s := by omega
  rw [e2] at hmem
  rw [e]
  exact hlast _ hmem

/-- In a boxwork whose `unders` membership implies the `over` link, every
two consecutive entries of a traced pile are linked by `over`. -/
lemma trace_over_chain (W : BoxWork) (hW : undersLinked W)
    (fuel b : Nat) (P : List Nat) (s : Nat)
    (h : trace W fuel b = some (P, s)) :
    ∀ j, j + 1 < P.length → (W (P.getD (j + 1) 0)).over = some (P.getD j 0) := by
  intro j hj
  by_cases hjs : j < s
  · exact trace_up_chain W fuel b P s h j hjs
  · have hdc := trace_down_chain W fuel b P s h (j + 1) (by omega) hj
    have e : j + 1 - 1 = j := by omega
    rw [e] at hdc
    have hmem : P.getD (j + 1) 0 ∈ (W (P.getD j 0)).unders :=
      List.mem_of_mem_head? hdc
    exact hW _ _ hmem

/-- In a boxwork whose `unders` membership implies the `over` link, a traced
pile has pairwise distinct entries (the pile is acyclic). -/
lemma trace_pairwise_ne (W : BoxWork) (hW : undersLinked W)
    (fuel b : Nat) (P : List Nat) (s : Nat)
    (h : trace W fuel b = some (P, s)) :
    ∀ p q, p < q → q < P.length → P.getD p 0 ≠ P.getD q 0 :=
  chain_root_ne (fun x => (W x).over) P
    (trace_over_chain W hW fuel b P s h) (trace_root W fuel b P s h)

/-- Elimination of a false scan condition at an index: the piles agree
there and the far box is not the near entry. -/
lemma exenCond_false_elim (far : Nat) (nears fars : List Nat) (j : Nat)
    (h : exenCond far nears fars j = false) :
    far ≠ nears.getD j 0 ∧ fars.getD j 0 = nears.getD j 0 := by
  rw [exenCond] at h
  simp only [Bool.or_eq_false_iff, beq_eq_false_iff_ne, Bool.not_eq_false',
    beq_iff_eq] at h
  exact h

/-- Two lists agreeing pointwise below `k` have equal `take k` prefixes. -/
lemma take_eq_of_getD (N F : List Nat) (k : Nat)
    (hkN : k ≤ N.length) (hkF : k ≤ F.length)
    (hpre : ∀ j, j < k → N.getD j 0 = F.getD j 0) :
    N.take k = F.take k := by
  apply List.ext_getElem
  · rw [List.length_take, List.length_take]
    omega
  · intro i h1 h2
    rw [List.length_take] at h1
    have hik : i < k := by omega
    have hiN : i < N.length := by omega
    have hiF : i < F.length := by omega
    rw [List.getElem_take N, List.getElem_take F]
    have := hpre i hik
    rw [List.getD_eq_getElem N 0 hiN, List.getD_eq_getElem F 0 hiF] at this
    exact this

/-- A member of `l.drop k` sits at some index of `l` at or beyond `k`. -/
lemma mem_drop_index (l : List Nat) (k x : Nat) (hx : x ∈ l.drop k) :
    ∃ p, k ≤ p ∧ p < l.length ∧ l.getD p 0 = x := by
  obtain ⟨i, hi, hix⟩ := List.getElem_of_mem hx
  have hlen : i < l.length - k := by
    rw [List.length_drop] at hi
    exact hi
  refine ⟨k + i, by omega, by omega, ?_⟩
  rw [List.getD_eq_getElem l 0 (by omega)]
  rw [← hix, List.getElem_drop l]

/-- Core disjointness argument: two over-rooted chains that agree strictly
below index `k` and differ at `k` share no element at indices `≥ k`.  This
is the tree-shape fact behind `exen`: after the branch point the near and
far piles cannot re-merge, because each entry determines its predecessor
through its `over` link. -/
lemma branch_disjoint (f : Nat → Option Nat) (N F : List Nat) (k : Nat)
    (hNchain : ∀ j, j + 1 < N.length → f (N.getD (j + 1) 0) = some (N.getD j 0))
    (hFchain : ∀ j, j + 1 < F.length → f (F.getD (j + 1) 0) = some (F.getD j 0))
    (hNroot : f (N.getD 0 0) = none)
    (hFroot : f (F.getD 0 0) = none)
    (hpre : ∀ j, j < k → N.getD j 0 = F.getD j 0)
    (hbr : N.getD k 0 ≠ F.getD k 0)
    (hNnd : ∀ p q, p < q → q < N.length → N.getD p 0 ≠ N.getD q 0)
    (hFnd : ∀ p q, p < q → q < F.length → F.getD p 0 ≠ F.getD q 0) :
    ∀ p q, k ≤ p → p < N.length → k ≤ q → q < F.length →
      N.getD p 0 ≠ F.getD q 0 := by
  suffices hmain : ∀ n p q, p + q ≤ n → k ≤ p → p < N.length → k ≤ q →
      q < F.length → N.getD p 0 ≠ F.getD q 0 by
    intro p q hkp hp hkq hq
    exact hmain (p + q) p q le_rfl hkp hp hkq hq
  intro n
  induction n with
  | zero =>
    intro p q hpq hkp hp hkq hq heq
    have hp0 : p = 0 := by omega
    have hq0 : q = 0 := by omega
    have hk0 : k = 0 := by omega
    subst hp0; subst hq0; subst hk0
    exact hbr heq
  | succ n ih =>
    intro p q hpq hkp hp hkq hq heq
    cases Nat.eq_zero_or_pos p with
    | inl hp0 =>
      subst hp0
      have hk0 : k = 0 := by omega
      cases Nat.eq_zero_or_pos q with
      | inl hq0 =>
        subst hq0; subst hk0
        exact hbr heq
      | inr hq1 =>
        have h2 := hFchain (q - 1) (by omega)
        have e : q - 1 + 1 = q := by omega
        rw [e] at h2
        rw [← heq] at h2
        rw [hNroot] at h2
        cases h2
    | inr hp1 =>
      cases Nat.eq_zero_or_pos q with
      | inl hq0 =>
        subst hq0
        have hk0 : k = 0 := by omega
        have h1 := hNchain (p - 1) (by omega)
        have e : p - 1 + 1 = p := by omega
        rw [e] at h1
        rw [heq] at h1
        rw [hFroot] at h1
        cases h1
      | inr hq1 =>
        have h1 := hNchain (p - 1) (by omega)
        have e1 : p - 1 + 1 = p := by omega
        rw [e1] at h1
        have h2 := hFchain (q - 1) (by omega)
        have e2 : q - 1 + 1 = q := by omega
        rw [e2] at h2
        rw [heq] at h1
        rw [h2] at h1
        have hprev : N.getD (p - 1) 0 = F.getD (q - 1) 0 :=
          (Option.some_injective _ h1).symm
        by_cases hp1k : k ≤ p - 1
        · by_cases hq1k : k ≤ q - 1
          · exact ih (p - 1) (q - 1) (by omega) hp1k (by omega) hq1k (by omega)
              hprev
          · have hqk : q = k := by omega
            have hk1 : k - 1 < k := by omega
            have hNk : N.getD (k - 1) 0 = F.getD (k - 1) 0 := hpre (k - 1) hk1
            have : N.getD (p - 1) 0 = F.getD (k - 1) 0 := by
              rw [hprev]
              have : q - 1 = k - 1 := by omega
              rw [this]
            rw [← hNk] at this
            by_cases hpk : p - 1 = k - 1
            · have hpk' : p = k := by omega
              subst hpk'
              have : q = p := by omega
              subst this
              exact hbr heq
            · have hlt : k - 1 < p - 1 := by omega
              exact hNnd (k - 1) (p - 1) hlt (by omega) this.symm
        · have hpk : p = k := by omega
          have hk1 : k - 1 < k := by omega
          have hNk : N.getD (k - 1) 0 = F.getD (k - 1) 0 := hpre (k - 1) hk1
          have hFF : F.getD (k - 1) 0 = F.getD (q - 1) 0 := by
            rw [← hNk]
            have : p - 1 = k - 1 := by omega
            rw [← this]
            exact hprev
          by_cases hqk : q - 1 = k - 1
          · have hq' : q = k := by omega
            subst hq'; subst hpk
            exact hbr heq
          · have hlt : k - 1 < q - 1 := by omega
            exact hFnd (k - 1) (q - 1) hlt (by omega) hFF

/-- A false scan condition, in propositional form. -/
lemma exenCond_eq_false_iff (far : Nat) (nears fars : List Nat) (j : Nat) :
    exenCond far nears fars j = false ↔
      ¬(far = nears.getD j 0 ∨ fars.getD j 0 ≠ nears.getD j 0) := by
  constructor
  · intro h
    obtain ⟨h1, h2⟩ := exenCond_false_elim far nears fars j h
    intro hor
    cases hor with
    | inl hl => exact h1 hl
    | inr hr => exact hr h2
  · intro h
    cases hc : exenCond far nears fars j
    · rfl
    · exact absurd ((exenCond_iff far nears fars j).mp hc) h

/-- `chainWork` links are consistent: `unders` membership matches `over`. -/
lemma undersLinked_chainWork : undersLinked chainWork := by
  intro a b hb
  rcases a with _ | _ | _ | a
  · have hb1 : b = 1 := by simpa [chainWork] using hb
    subst hb1; rfl
  · have hb2 : b = 2 := by simpa [chainWork] using hb
    subst hb2; rfl
  · simp [chainWork] at hb
  · simp [chainWork] at hb

/-- `branchWork` links are consistent: `unders` membership matches `over`. -/
lemma undersLinked_branchWork : undersLinked branchWork := by
  intro a b hb
  rcases a with _ | _ | _ | _ | a
  · have hb1 : b = 1 := by simpa [branchWork] using hb
    subst hb1; rfl
  · have hb2 : b = 2 ∨ b = 3 := by simpa [branchWork] using hb
    cases hb2 with
    | inl h2 => subst h2; rfl
    | inr h3 => subst h3; rfl
  · simp [branchWork] at hb
  · simp [branchWork] at hb
  · simp [branchWork] at hb

/-- `branchWork` links are consistent the other way round: every `over`
link is recorded in the over box's `unders`. -/
lemma overLinked_branchWork : overLinked branchWork := by
  intro a b hb
  rcases b with _ | _ | _ | _ | b
  · simp [branchWork] at hb
  · have ha : a = 0 := by
      simpa [branchWork, eq_comm] using hb
    subst ha
    simp [branchWork]
  · have ha : a = 1 := by
      simpa [branchWork, eq_comm] using hb
    subst ha
    simp [branchWork]
  · have ha : a = 1 := by
      simpa [branchWork, eq_comm] using hb
    subst ha
    simp [branchWork]
  · simp [branchWork] at hb

/-- C1: for boxes `near` and `far` with traced piles `N = near.pile` and
`F = far.pile` (both top-down), `Boxer.exen(near, far)` returns
`(reversed(N[i:]), F[i:], reversed(N[:i]), F[:i])` where `i` is the least
index with `far is N[i]` or `F[i] is not N[i]` (when such an index exists
below `min(len(N), len(F))`); in particular for the S4 piles
`[R, A, X] = [0, 1, 2]`, `[R, A, Y] = [0, 1, 3]` it returns
`exits = [X]`, `enters = [Y]`, `rexits = [A, R]`, `renters = [R, A]`, and
for the S5 disjoint piles `[P, Q] = [0, 1]`, `[R, S] = [2, 3]` it returns
`exits = [Q, P]`, `enters = [R, S]`, `rexits = []`, `renters = []`. -/
theorem exen_least_index_quadruple :
    (∀ (W : BoxWork) (fuel near far : Nat) (N F : List Nat) (sn sf i : Nat),
      trace W fuel near = some (N, sn) →
      trace W fuel far = some (F, sf) →
      i < min N.length F.length →
      (far = N.getD i 0 ∨ F.getD i 0 ≠ N.getD i 0) →
      (∀ j, j < i → ¬(far = N.getD j 0 ∨ F.getD j 0 ≠ N.getD j 0)) →
      exenBoxes W fuel near far =
        some ((N.drop i).reverse, F.drop i, (N.take i).reverse, F.take i)) ∧
    exenBoxes branchWork 10 2 3 = some ([2], [3], [1, 0], [0, 1]) ∧
    exenBoxes twoTreeWork 10 1 3 = some ([1, 0], [2, 3], [], []) := by
  refine ⟨?_, by decide, by decide⟩
  intro W fuel near far N F sn sf i hN hF hi hc hmin
  have hred : exenBoxes W fuel near far = exen far N F := by
    simp only [exenBoxes, hN, hF]
  rw [hred]
  exact exen_eq_some far N F i hi ((exenCond_iff far N F i).mpr hc)
    (fun j hj => (exenCond_eq_false_iff far N F j).mpr (hmin j hj))

/-- Witness for C1 at the S4 input: near box `2`, far box `3` of
`branchWork`, branch index `i = 2`. -/
theorem exen_least_index_quadruple_witness :
    exenBoxes branchWork 10 2 3 =
      some (([0, 1, 2].drop 2).reverse, [0, 1, 3].drop 2,
        ([0, 1, 2].take 2).reverse, [0, 1, 3].take 2) :=
  exen_least_index_quadruple.1 branchWork 10 2 3 [0, 1, 2] [0, 1, 3] 2 2 2
    (by decide) (by decide) (by decide) (by decide)
    (by intro j hj; interval_cases j <;> simp)

/-- C3 counterexample: for `near = far =` the bottom box `C` (box `2`) of
the pile `[A, B, C] = [0, 1, 2]`, `exen` does not return
`([C, B, A], [A, B, C], [], [])` as the claim states. -/
theorem exen_bottom_reentry_cex :
    exenBoxes chainWork 10 2 2 ≠ some ([2, 1, 0], [0, 1, 2], [], []) := by
  decide

/-- C3 amended: for `near = far =` the bottom box `C` (box `2`) of the pile
`[A, B, C] = [0, 1, 2]`, `exen` returns `exits = [C]`, `enters = [C]`,
`rexits = [B, A]`, `renters = [A, B]` (forced reentry exits and re-enters
only the far box and below); the quadruple the claim states,
`([C, B, A], [A, B, C], [], [])`, is what `exen` returns when
`near = far =` the top box `A` (box `0`). -/
theorem exen_bottom_reentry :
    exenBoxes chainWork 10 2 2 = some ([2], [2], [1, 0], [0, 1]) ∧
    exenBoxes chainWork 10 0 0 = some ([2, 1, 0], [0, 1, 2], [], []) := by
  decide

/-- C4: for every box `b` whose pile has been traced (in a boxwork with
consistent links, as `bx` and `resolve` build them): `pile[spot] is b`;
for `i < spot`, `pile[i+1].over is pile[i]`; for `i > spot`,
`pile[i-1].unders[0] is pile[i]`; and the pile is acyclic (all entries
pairwise distinct). -/
theorem box_pile_integrity (W : BoxWork) (fuel b : Nat) (P : List Nat)
    (s : Nat) (hW : undersLinked W) (h : trace W fuel b = some (P, s)) :
    P.getD s 0 = b ∧
    (∀ i, i < s → (W (P.getD (i + 1) 0)).over = some (P.getD i 0)) ∧
    (∀ i, s < i → i < P.length →
      (W (P.getD (i - 1) 0)).unders.head? = some (P.getD i 0)) ∧
    (∀ p q, p < q → q < P.length → P.getD p 0 ≠ P.getD q 0) :=
  ⟨trace_getD_spot W fuel b P s h,
   trace_up_chain W fuel b P s h,
   trace_down_chain W fuel b P s h,
   trace_pairwise_ne W hW fuel b P s h⟩

/-- Witness for C4: the middle box `1` of `chainWork`, pile `[0, 1, 2]`,
spot `1`. -/
theorem box_pile_integrity_witness :
    [0, 1, 2].getD 1 0 = 1 ∧
    (∀ i, i < 1 → (chainWork ([0, 1, 2].getD (i + 1) 0)).over =
      some ([0, 1, 2].getD i 0)) ∧
    (∀ i, 1 < i → i < [0, 1, 2].length →
      (chainWork ([0, 1, 2].getD (i - 1) 0)).unders.head? =
        some ([0, 1, 2].getD i 0)) ∧
    (∀ p q, p < q → q < [0, 1, 2].length →
      [0, 1, 2].getD p 0 ≠ [0, 1, 2].getD q 0) :=
  box_pile_integrity chainWork 10 1 [0, 1, 2] 1 undersLinked_chainWork
    (by decide)

/-- C2: on any pair of traced boxes (in a boxwork with consistent links) on
which `exen` returns `(exits, enters, rexits, renters)`: `rexits` and
`renters` hold the same boxes; `exits` and `rexits` together hold exactly
`near.pile`; `enters` and `renters` together hold exactly `far.pile`; and
`exits` and `enters` are disjoint unless `far` is a member of `near.pile`
(forced reentry). -/
theorem exen_partition (W : BoxWork) (hW : undersLinked W)
    (fuel near far : Nat) (N F : List Nat) (sn sf : Nat)
    (ex en rex ren : List Nat)
    (hN : trace W fuel near = some (N, sn))
    (hF : trace W fuel far = some (F, sf))
    (hx : exen far N F = some (ex, en, rex, ren)) :
    (∀ x, x ∈ rex ↔ x ∈ ren) ∧
    (∀ x, (x ∈ ex ∨ x ∈ rex) ↔ x ∈ N) ∧
    (∀ x, (x ∈ en ∨ x ∈ ren) ↔ x ∈ F) ∧
    (far ∉ N → ∀ x, ¬(x ∈ ex ∧ x ∈ en)) := by
  obtain ⟨i, hi, hc, hmin, hq⟩ := exen_some_elim far N F _ hx
  simp only [exenQuad, Prod.mk.injEq] at hq
  obtain ⟨hex, hen, hrex, hren⟩ := hq
  subst hex; subst hen; subst hrex; subst hren
  have hiN : i < N.length := by omega
  have hiF : i < F.length := by omega
  have hpre : ∀ j, j < i → far ≠ N.getD j 0 ∧ F.getD j 0 = N.getD j 0 :=
    fun j hj => exenCond_false_elim far N F j (hmin j hj)
  have htake : N.take i = F.take i :=
    take_eq_of_getD N F i (le_of_lt hiN) (le_of_lt hiF)
      (fun j hj => ((hpre j hj).2).symm)
  refine ⟨?_, ?_, ?_, ?_⟩
  · intro x
    rw [List.mem_reverse, htake]
  · intro x
    rw [List.mem_reverse, List.mem_reverse]
    have hsplit : N.take i ++ N.drop i = N := List.take_append_drop i N
    constructor
    · intro h
      rw [← hsplit, List.mem_append]
      exact h.symm
    · intro h
      rw [← hsplit, List.mem_append] at h
      exact h.symm
  · intro x
    have hsplit : F.take i ++ F.drop i = F := List.take_append_drop i F
    constructor
    · intro h
      rw [← hsplit, List.mem_append]
      exact h.symm
    · intro h
      rw [← hsplit, List.mem_append] at h
      exact h.symm
  · intro hfar x hx2
    obtain ⟨hxex, hxen⟩ := hx2
    rw [List.mem_reverse] at hxex
    obtain ⟨p, hip, hpN, hpx⟩ := mem_drop_index N i x hxex
    obtain ⟨q, hiq, hqF, hqx⟩ := mem_drop_index F i x hxen
    have hcond := (exenCond_iff far N F i).mp hc
    have hNiF : N.getD i 0 ≠ F.getD i 0 := by
      cases hcond with
      | inl h =>
        exfalso
        apply hfar
        rw [h, List.getD_eq_getElem N 0 hiN]
        exact List.getElem_mem hiN
      | inr h => exact fun he => h he.symm
    exact branch_disjoint (fun y => (W y).over) N F i
      (trace_over_chain W hW fuel near N sn hN)
      (trace_over_chain W hW fuel far F sf hF)
      (trace_root W fuel near N sn hN)
      (trace_root W fuel far F sf hF)
      (fun j hj => ((hpre j hj).2).symm)
      hNiF
      (trace_pairwise_ne W hW fuel near N sn hN)
      (trace_pairwise_ne W hW fuel far F sf hF)
      p q hip hpN hiq hqF (by rw [hpx, hqx])

/-- Witness for C2 at the S4 input: `branchWork`, near box `2`, far
box `3`, piles `[0, 1, 2]` and `[0, 1, 3]`, quadruple
`([2], [3], [1, 0], [0, 1])`. -/
theorem exen_partition_witness :
    (∀ x : Nat, x ∈ [1, 0] ↔ x ∈ [0, 1]) ∧
    (∀ x : Nat, (x ∈ [2] ∨ x ∈ [1, 0]) ↔ x ∈ [0, 1, 2]) ∧
    (∀ x : Nat, (x ∈ [3] ∨ x ∈ [0, 1]) ↔ x ∈ [0, 1, 3]) ∧
    ((3 : Nat) ∉ [0, 1, 2] → ∀ x : Nat, ¬(x ∈ [2] ∧ x ∈ [3])) :=
  exen_partition branchWork undersLinked_branchWork 10 2 3
    [0, 1, 2] [0, 1, 3] 2 2 [2] [3] [1, 0] [0, 1]
    (by decide) (by decide) (by decide)

/-- C10 counterexample: in `danglingWork` both piles are well-formed traces
(`[0]` for box `0`, `[0, 1]` for box `1`), each box is a member of its own
pile and both piles have distinct elements, yet the `exen` scan finds no
qualifying index and falls through, returning `None`. -/
theorem exen_fallthrough_cex :
    trace danglingWork 10 0 = some ([0], 0) ∧
    trace danglingWork 10 1 = some ([0, 1], 1) ∧
    (0 : Nat) ∈ [0] ∧ (1 : Nat) ∈ [0, 1] ∧
    ([0] : List Nat).Nodup ∧ ([0, 1] : List Nat).Nodup ∧
    exenBoxes danglingWork 10 0 1 = none := by
  decide

/-- C10 amended: in a boxwork whose `over` links are all recorded in the
over box's `unders` (as `bx` and `resolve` build them), the `exen` scan
always finds a qualifying index below `min(len(N), len(F))`, so the
fall-through returning `None` is unreachable and `exen` always returns a
quadruple.  Without that link consistency the fall-through is reachable
(see the counterexample). -/
theorem exen_total (W : BoxWork) (hW : overLinked W)
    (fuel near far : Nat) (N F : List Nat) (sn sf : Nat)
    (hN : trace W fuel near = some (N, sn))
    (hF : trace W fuel far = some (F, sf)) :
    ∃ q, exenBoxes W fuel near far = some q := by
  have hred : exenBoxes W fuel near far = exen far N F := by
    simp only [exenBoxes, hN, hF]
  rw [hred]
  apply exen_isSome
  by_contra hno
  push_neg at hno
  have hall : ∀ i, i < min N.length F.length → exenCond far N F i = false := by
    intro i hi
    cases h : exenCond far N F i
    · rfl
    · exact absurd h (hno i hi)
  have hsfF : sf < F.length := trace_spot_lt W fuel far F sf hF
  have hsnN : sn < N.length := trace_spot_lt W fuel near N sn hN
  have hfsp : F.getD sf 0 = far := trace_getD_spot W fuel far F sf hF
  have hsfl : min N.length F.length ≤ sf := by
    by_contra hlt
    push_neg at hlt
    obtain ⟨hfar, heq⟩ := exenCond_false_elim far N F sf (hall sf hlt)
    apply hfar
    rw [← heq, hfsp]
  have hlN : min N.length F.length = N.length := by omega
  obtain ⟨hfarj, heqj⟩ :=
    exenCond_false_elim far N F (N.length - 1) (hall (N.length - 1) (by omega))
  have hlast := trace_last W fuel near N sn hN
  have hupF := trace_up_chain W fuel far F sf hF (N.length - 1) (by omega)
  rw [heqj] at hupF
  have hmem := hW _ _ hupF
  rw [List.head?_eq_none_iff] at hlast
  rw [hlast] at hmem
  exact absurd hmem (List.not_mem_nil _)

/-- Witness for the amended C10: `branchWork` with near box `2` and far
box `3`. -/
theorem exen_total_witness :
    ∃ q, exenBoxes branchWork 10 2 3 = some q :=
  exen_total branchWork overLinked_branchWork 10 2 3 [0, 1, 2] [0, 1, 3] 2 2
    (by decide) (by decide)

/-- C5: at the failing input (box `a` with no over, box `b` whose over is
the resolvable name string `"a"`), the over loop of `Boxer.resolve` raises
`UnboundLocalError` — it evaluates `self.boxes[over]` with the local `over`
unbound — whereas the resolution the claim describes (spec §4.6) succeeds,
replacing `b.over` by box `a` and appending `b` to `a.unders`. -/
theorem resolve_unbound_local :
    resolveOvers resolveInput = Except.error PyErr.unboundLocal ∧
    resolveOversSpec resolveInput =
      Except.ok [("a", ⟨OverLink.noBox, ["b"]⟩),
                 ("b", ⟨OverLink.resolved "a", []⟩)] := by
  exact ⟨rfl, rfl⟩

/-- C6 counterexample: constructing a `Goact` with the non-godo nabe
`"endo"` does not fail with `InvalidNabe`; it succeeds (with the nabe
silently overridden to godo). -/
theorem goact_invalid_nabe_cex :
    goactInit (some "endo") none = Except.ok ⟨"godo", "next"⟩ ∧
    goactInit (some "endo") none ≠
      Except.error (PyErr.hier "InvalidNabe") := by
  constructor
  · rfl
  · intro h
    cases h

/-- C6 amended: `Goact.__init__` overrides any passed nabe with godo
(`kwa.update(nabe=Nabe.godo)`) before `ActBase.__init__` stores it, so the
`InvalidNabe` check never fires: construction succeeds for every nabe value
and the constructed Goact's nabe is always godo. -/
theorem goact_nabe_forced (nb ds : Option String) :
    goactInit nb ds = Except.ok ⟨"godo", ds.getD "next"⟩ := rfl

/-- C7: `Boxer.do` appends no Act to the current box's `enacts` (nor to any
other act list): it only generates and returns a deed name, bumping
`bxidx`; at the concrete input (boxer with one box `box0`, fresh index,
empty `enacts`) it returns `"act0"` and `enacts` stays empty. -/
theorem do_verb_appends_no_act :
    (∀ st deed r, doVerb st deed = Except.ok r → r.2.enacts = st.enacts) ∧
    doVerb ⟨["box0"], 0, []⟩ none = Except.ok ("act0", ⟨["box0"], 1, []⟩) := by
  constructor
  · intro st deed r h
    cases deed with
    | none =>
      simp only [doVerb] at h
      cases h
      rfl
    | some d =>
      simp only [doVerb] at h
      by_cases hd : d = ""
      · rw [if_pos hd] at h; cases h
      · rw [if_neg hd] at h; cases h; rfl
  · rfl

/-- Witness for C7: the no-append fact applied at the concrete input. -/
theorem do_verb_appends_no_act_witness :
    (⟨["box0"], 1, []⟩ : WorkState).enacts =
      (⟨["box0"], 0, []⟩ : WorkState).enacts :=
  do_verb_appends_no_act.1 ⟨["box0"], 0, []⟩ none
    ("act0", ⟨["box0"], 1, []⟩) rfl

/-- C8 counterexample: box `0` of `cacheWork0` is traced (pile `[0]` is
cached); its `over` is then mutated to box `1`; the next `pile` access
still returns the stale `[0]` although tracing the new links gives
`[1, 0]` — the mutation did not invalidate the cache. -/
theorem pile_cache_stale_cex :
    ∃ W1, pileGet cacheWork0 10 0 = some ([0], W1) ∧
      pileGet (setOver W1 0 (some 1)) 10 0 =
        some ([0], setOver W1 0 (some 1)) ∧
      trace (linksView (setOver W1 0 (some 1))) 10 0 = some ([1, 0], 1) ∧
      ([0] : List Nat) ≠ [1, 0] := by
  refine ⟨_, rfl, rfl, rfl, by decide⟩

/-- C8 amended: mutating `over` or `unders` does not invalidate the `_pile`
cache: whenever a pile is cached, a `pile` access after the mutation
returns the stale cached pile unchanged; a fresh trace happens only when
`_pile` is `None` (i.e. before first access or after an explicit
`_trace`). -/
theorem pile_cache_not_invalidated (W : CacheWork) (b : Nat) (p : List Nat)
    (h : (W b).cpile = some p) (v : Option Nat) (us : List Nat) (fuel : Nat) :
    pileGet (setOver W b v) fuel b = some (p, setOver W b v) ∧
    pileGet (setUnders W b us) fuel b = some (p, setUnders W b us) := by
  constructor
  · have hc : ((setOver W b v) b).cpile = some p := by
      simp [setOver, h]
    simp [pileGet, hc]
  · have hc : ((setUnders W b us) b).cpile = some p := by
      simp [setUnders, h]
    simp [pileGet, hc]

/-- Witness for the amended C8 at the already-traced `cachedWork1`. -/
theorem pile_cache_not_invalidated_witness :
    pileGet (setOver cachedWork1 0 (some 1)) 10 0 =
      some ([0], setOver cachedWork1 0 (some 1)) ∧
    pileGet (setUnders cachedWork1 0 [5]) 10 0 =
      some ([0], setUnders cachedWork1 0 [5]) :=
  pile_cache_not_invalidated cachedWork1 0 [0] rfl (some 1) [5] 10

/-- C9: `UpdateMark.act` with iops boxer `B`, box `X`, key `K` sets the
value of the bag at `("", "boxer", B, "box", X, "update", K)` to
`mine[K]._tyme`; immediately afterwards, with no intervening mine writes at
`K`, the updated predicate for `K` (stored mark differs from the bag's
`_tyme`) is false. -/
theorem update_mark_idempotent (mine : Mine) (now : ℚ)
    (boxer box key : String) (mine2 : Mine)
    (h : updateMarkAct mine now boxer box key = some mine2) :
    (∀ bag, mine [key] = some bag →
      ∃ mark, mine2 (updateKeys boxer box key) = some mark ∧
        mark.value = bag.tyme) ∧
    updatedPred mine2 boxer box key = some false := by
  have hne : [key] ≠ updateKeys boxer box key := by
    intro he
    have hlen := congrArg List.length he
    simp [updateKeys] at hlen
  rw [updateMarkAct] at h
  cases hbag : mine [key] with
  | none => rw [hbag] at h; cases h
  | some bag =>
    cases hmark : mine (updateKeys boxer box key) with
    | none => rw [hbag, hmark] at h; cases h
    | some mark =>
      rw [hbag, hmark] at h
      have hm2 := (Option.some.inj h).symm
      have hupd : mine2 (updateKeys boxer box key) =
          some { mark with value := bag.tyme, tyme := some now } := by
        rw [hm2]
        simp
      have hkey : mine2 [key] = some bag := by
        rw [hm2]
        simp only [if_neg hne]
        exact hbag
      constructor
      · intro bag2 hbag2
        have hb : bag2 = bag := (Option.some.inj hbag2).symm
        subst hb
        exact ⟨_, hupd, rfl⟩
      · rw [updatedPred, hkey, hupd]
        simp

/-- Witness for C9: at `mineStart` (bag at `["k"]` written at tyme 1/2,
fresh mark bag) the act succeeds and the updated predicate is false. -/
theorem update_mark_idempotent_witness :
    ∃ mine2, updateMarkAct mineStart 2 "b" "x" "k" = some mine2 ∧
      updatedPred mine2 "b" "x" "k" = some false := by
  refine ⟨_, rfl, (update_mark_idempotent mineStart 2 "b" "x" "k" _ rfl).2⟩

/-- Witness for the amended C6: construction with the redo nabe and an
explicit dest succeeds with nabe forced to godo. -/
theorem goact_nabe_forced_witness :
    goactInit (some "redo") (some "done") = Except.ok ⟨"godo", "done"⟩ :=
  goact_nabe_forced (some "redo") (some "done")
